import Mathlib

/-!
Verification of the `Config` class (a configuration store with a placeholder
substitution engine).  The development shallowly embeds the two variants of the
class — the richer one with `@{...}` function placeholders (depth cap 10) and
the simpler one (depth cap 5) — together with the behaviour of the external
helpers they call (`lodash.get`, `lodash.set`, `lodash.merge`, and the
flatten utility with `strict` handling).

JavaScript values are modelled by `JSVal`; objects are association lists in
insertion order (JS objects preserve insertion order), arrays are lists.
Reference identity / aliasing of the JS heap is not modelled: values are
immutable trees.  Dotted path strings are modelled as lists of path segments
(the code round-trips paths through `.`-joined strings; the two coincide for
keys that contain no dot).
-/

/-- A JavaScript value as used by the config store: `undefined`, `null`,
booleans, numbers, strings, objects (insertion-ordered fields) and arrays. -/
inductive JSVal where
  | undef : JSVal
  | null : JSVal
  | bool : Bool → JSVal
  | num : Int → JSVal
  | str : String → JSVal
  | obj : List (String × JSVal) → JSVal
  | arr : List JSVal → JSVal

mutual
/-- Boolean (structural) equality on `JSVal`. -/
def beqJSVal : JSVal → JSVal → Bool
  | JSVal.undef, JSVal.undef => true
  | JSVal.null, JSVal.null => true
  | JSVal.bool a, JSVal.bool b => a == b
  | JSVal.num a, JSVal.num b => a == b
  | JSVal.str a, JSVal.str b => a == b
  | JSVal.obj a, JSVal.obj b => beqFields a b
  | JSVal.arr a, JSVal.arr b => beqList a b
  | _, _ => false

def beqFields : List (String × JSVal) → List (String × JSVal) → Bool
  | [], [] => true
  | (k1, v1) :: r1, (k2, v2) :: r2 => k1 == k2 && beqJSVal v1 v2 && beqFields r1 r2
  | _, _ => false

def beqList : List JSVal → List JSVal → Bool
  | [], [] => true
  | a :: r1, b :: r2 => beqJSVal a b && beqList r1 r2
  | _, _ => false
end

mutual
def beqJSVal_sound : ∀ (a b : JSVal), beqJSVal a b = true → a = b
  | JSVal.undef, b => by cases b <;> simp [beqJSVal]
  | JSVal.null, b => by cases b <;> simp [beqJSVal]
  | JSVal.bool x, b => by cases b <;> simp [beqJSVal]
  | JSVal.num x, b => by cases b <;> simp [beqJSVal]
  | JSVal.str x, b => by cases b <;> simp [beqJSVal]
  | JSVal.obj fs, b => by
    cases b <;> simp [beqJSVal]
    exact beqFields_sound fs _
  | JSVal.arr xs, b => by
    cases b <;> simp [beqJSVal]
    exact beqList_sound xs _

def beqFields_sound : ∀ (a b : List (String × JSVal)), beqFields a b = true → a = b
  | [], b => by cases b <;> simp [beqFields]
  | (k, v) :: r, [] => by simp [beqFields]
  | (k, v) :: r, (k2, v2) :: r2 => by
    simp only [beqFields, Bool.and_eq_true, beq_iff_eq]
    intro h
    obtain ⟨⟨h1, h2⟩, h3⟩ := h
    simp [h1, beqJSVal_sound v v2 h2, beqFields_sound r r2 h3]

def beqList_sound : ∀ (a b : List JSVal), beqList a b = true → a = b
  | [], b => by cases b <;> simp [beqList]
  | x :: r, [] => by simp [beqList]
  | x :: r, y :: r2 => by
    simp only [beqList, Bool.and_eq_true]
    intro h
    obtain ⟨h1, h2⟩ := h
    simp [beqJSVal_sound x y h1, beqList_sound r r2 h2]
end

mutual
def beqJSVal_refl : ∀ (a : JSVal), beqJSVal a a = true
  | JSVal.undef => rfl
  | JSVal.null => rfl
  | JSVal.bool x => by simp [beqJSVal]
  | JSVal.num x => by simp [beqJSVal]
  | JSVal.str x => by simp [beqJSVal]
  | JSVal.obj fs => beqFields_refl fs
  | JSVal.arr xs => beqList_refl xs

def beqFields_refl : ∀ (a : List (String × JSVal)), beqFields a a = true
  | [] => rfl
  | (k, v) :: r => by
    simp [beqFields, beqJSVal_refl v, beqFields_refl r]

def beqList_refl : ∀ (a : List JSVal), beqList a a = true
  | [] => rfl
  | x :: r => by
    simp [beqList, beqJSVal_refl x, beqList_refl r]
end

instance : DecidableEq JSVal := fun a b =>
  if h : beqJSVal a b = true then isTrue (beqJSVal_sound a b h)
  else isFalse (fun he => h (by rw [he]; exact beqJSVal_refl b))

/-- JS truthiness: `undefined`, `null`, `false`, `0` and `""` are falsy. -/
def truthy : JSVal → Bool
  | JSVal.undef => false
  | JSVal.null => false
  | JSVal.bool b => b
  | JSVal.num n => n != 0
  | JSVal.str s => s ≠ ""
  | JSVal.obj _ => true
  | JSVal.arr _ => true

/-- Whether a value is a string (JS `typeof v === 'string'`). -/
def isStringV : JSVal → Bool
  | JSVal.str _ => true
  | _ => false

/-- Whether a value is an object in the lodash `isObject` sense relevant here
(plain object or array). -/
def isContainer : JSVal → Bool
  | JSVal.obj _ => true
  | JSVal.arr _ => true
  | _ => false

/-- Property access `v[k]` on an object; `undefined` when absent or when `v`
is not an object. -/
def objGetVal (v : JSVal) (k : String) : JSVal :=
  match v with
  | JSVal.obj fs => ((fs.find? (fun kv => kv.1 = k)).map (fun kv => kv.2)).getD JSVal.undef
  | _ => JSVal.undef

/-! ### Character-level string helpers

The JS code manipulates strings with regexes and `split`/`trim`; these are
modelled on `List Char` so that everything reduces in the kernel. -/

/-- JS `String.prototype.split` with a one-character separator:
`"".split(c) = [""]`, empty fields are kept. -/
def splitOnChar (sep : Char) : List Char → List (List Char)
  | [] => [[]]
  | c :: cs =>
    let r := splitOnChar sep cs
    if c = sep then [] :: r
    else
      match r with
      | h :: t => (c :: h) :: t
      | [] => [[c]]

/-- A whitespace character as far as `String.prototype.trim` is concerned
(the common cases; exotic Unicode space characters are not modelled). -/
def isWSChar (c : Char) : Bool :=
  c = ' ' ∨ c = '\t' ∨ c = '\n' ∨ c = '\r'

/-- JS `String.prototype.trim` on a character list. -/
def trimChars (cs : List Char) : List Char :=
  ((cs.dropWhile isWSChar).reverse.dropWhile isWSChar).reverse

/-- Split at the first `:` (the lazy regex `/^(.*?):(.*)$/`); `none` when the
string contains no colon. -/
def splitFirstColon : List Char → Option (List Char × List Char)
  | [] => none
  | c :: cs =>
    if c = ':' then some ([], cs)
    else (splitFirstColon cs).map (fun pr => (c :: pr.1, pr.2))

/-- Split at the last `:` (the greedy regex `/^(.*)?:(.*)$/` of the simpler
variant); `none` when the string contains no colon. -/
def splitLastColon (cs : List Char) : Option (List Char × List Char) :=
  (splitFirstColon cs.reverse).map (fun pr => (pr.2.reverse, pr.1.reverse))

/-- `key.replace(/:/g, '.')`. -/
def replaceColonDot (cs : List Char) : List Char :=
  cs.map (fun c => if c = ':' then '.' else c)

/-- Decimal digit parsing for array-index path segments. -/
def parseDigits : List Char → Nat
  | [] => 0
  | c :: cs => (c.toNat - 48) * (10 ^ cs.length) + parseDigits cs

/-- lodash `isIndex`-style test: a path segment is an array index iff it is a
canonical decimal numeral (`"0"` or digits without a leading zero). -/
def isIndexSeg (s : String) : Option Nat :=
  match s.data with
  | [] => none
  | ['0'] => some 0
  | c :: cs =>
    if c.isDigit ∧ c ≠ '0' ∧ cs.all Char.isDigit then some (parseDigits (c :: cs))
    else none

/-- lodash `toPath` on a character list: `""` gives the empty path, otherwise
split on `.`. -/
def toPathChars (cs : List Char) : List String :=
  if cs = [] then [] else (splitOnChar '.' cs).map (fun p => String.mk p)

/-! ### lodash `get` / `set` -/

/-- One traversal step of a lodash path: object field lookup, or array index
lookup for a canonical numeral segment.  Anything else yields `none`
(absent). -/
def getStep (v : JSVal) (s : String) : Option JSVal :=
  match v with
  | JSVal.obj fs => (fs.find? (fun kv => kv.1 = s)).map (fun kv => kv.2)
  | JSVal.arr xs =>
    match isIndexSeg s with
    | some n => xs.get? n
    | none => none
  | _ => none

/-- lodash `baseGet`: walk the whole path. -/
def baseGet (v : JSVal) : List String → Option JSVal
  | [] => some v
  | s :: rest =>
    match getStep v s with
    | some c => baseGet c rest
    | none => none

/-- lodash `_.get(obj, path)`: an empty path resolves to `undefined`. -/
def lodashGet (v : JSVal) (p : List String) : Option JSVal :=
  if p = [] then none else baseGet v p

/-- lodash `_.get(obj, path, default)`: the default is returned whenever the
resolved value is `undefined` (absent or stored `undefined`). -/
def lodashGetD (v : JSVal) (p : List String) (d : JSVal) : JSVal :=
  match lodashGet v p with
  | some x => if x = JSVal.undef then d else x
  | none => d

/-- Replace the first field named `k` (JS assignment keeps insertion order),
appending when absent. -/
def upsertField : List (String × JSVal) → String → JSVal → List (String × JSVal)
  | [], k, x => [(k, x)]
  | (k0, v0) :: fs, k, x =>
    if k0 = k then (k0, x) :: fs else (k0, v0) :: upsertField fs k x

/-- JS `arr[n] = x`: set index `n`, extending with `undefined` holes when `n`
is beyond the current length. -/
def listSetPad (xs : List JSVal) (n : Nat) (x : JSVal) : List JSVal :=
  if n < xs.length then xs.set n x
  else xs ++ List.replicate (n - xs.length) JSVal.undef ++ [x]

/-- One assignment step of lodash `set`.  Setting a non-index property on an
array, or any property on a scalar, is not representable in the tree model
and leaves the value unchanged (unreachable in the modelled flows, which only
assign through containers). -/
def setStep (v : JSVal) (s : String) (x : JSVal) : JSVal :=
  match v with
  | JSVal.obj fs => JSVal.obj (upsertField fs s x)
  | JSVal.arr xs =>
    match isIndexSeg s with
    | some n => JSVal.arr (listSetPad xs n x)
    | none => v
  | _ => v

/-- The nested value `lodash.set` walks into at an intermediate path step: an
existing container is kept, anything else is replaced by `[]` when the next
segment is an index numeral and by `{}` otherwise. -/
def childFor (v : JSVal) (s s2 : String) : JSVal :=
  let child0 := (getStep v s).getD JSVal.undef
  if isContainer child0 then child0
  else
    match isIndexSeg s2 with
    | some _ => JSVal.arr []
    | none => JSVal.obj []

/-- lodash `_.set(obj, path, x)`: walk the path, keeping existing containers
and creating `[]` for a numeral next segment and `{}` otherwise, then
assign. -/
def lodashSet (v : JSVal) : List String → JSVal → JSVal
  | [], _ => v
  | [s], x => setStep v s x
  | s :: s2 :: rest, x => setStep v s (lodashSet (childFor v s s2) (s2 :: rest) x)

/-! ### lodash `merge` (structural model)

Recursion is on the source value, matching `baseMerge`'s iteration over the
source's keys: plain objects merge field-wise, arrays merge index-wise,
`undefined` sources are skipped, any other source value wins (lodash clones
plain source objects, which a structural model renders as the value itself).
-/

mutual
def mergeVal : JSVal → JSVal → JSVal
  | t, JSVal.obj sf =>
    (match t with
     | JSVal.obj tf => JSVal.obj (mergeFields tf sf)
     | _ => JSVal.obj (mergeFields [] sf))
  | t, JSVal.arr sx =>
    (match t with
     | JSVal.arr tx => JSVal.arr (mergeArr tx sx)
     | _ => JSVal.arr (mergeArr [] sx))
  | t, JSVal.undef => t
  | _, s => s

def mergeFields : List (String × JSVal) → List (String × JSVal) → List (String × JSVal)
  | tf, [] => tf
  | tf, (k, sv) :: rest =>
    mergeFields
      (upsertField tf k
        (mergeVal (((tf.find? (fun kv => kv.1 = k)).map (fun kv => kv.2)).getD JSVal.undef) sv))
      rest

def mergeArr : List JSVal → List JSVal → List JSVal
  | tx, [] => tx
  | tx, sv :: rest => mergeVal (tx.headD JSVal.undef) sv :: mergeArr tx.tail rest
end

/-! ### JS string conversion (`String(v)`, used when a substitution result is
spliced back into the template) -/

mutual
/-- JS `String(v)`: arrays join their elements with `,` (with `null` and
`undefined` rendering as empty), plain objects print `[object Object]`. -/
def jsToString : JSVal → String
  | JSVal.undef => "undefined"
  | JSVal.null => "null"
  | JSVal.bool true => "true"
  | JSVal.bool false => "false"
  | JSVal.num n => toString n
  | JSVal.str s => s
  | JSVal.obj _ => "[object Object]"
  | JSVal.arr xs => String.intercalate "," (jsToStringList xs)

def jsToStringList : List JSVal → List String
  | [] => []
  | JSVal.undef :: xs => "" :: jsToStringList xs
  | JSVal.null :: xs => "" :: jsToStringList xs
  | x :: xs => jsToString x :: jsToStringList xs
end

/-! ### The substitution regex

The richer variant uses `/[$@]\{(?!.*?[$@])(.*?)}/g`: a sigil (`$` or `@`)
followed by `{`, succeeding only when no further sigil occurs in the rest of
the current line (the negative lookahead's `.` does not cross `\n`), with the
span's content running lazily up to the first `}` on the same line.  The
scanner below reproduces the JS `g`-flag scan: try a match at each position,
advance by one character on failure, continue after the span on success. -/

/-- A piece of a template under one regex pass: a literal character or a
matched placeholder span (sigil plus raw content between the braces). -/
inductive Piece where
  | lit : Char → Piece
  | ph : Char → List Char → Piece
deriving DecidableEq

/-- No sigil character occurs before the first newline. -/
def noSigilBefore (sig : Char → Bool) : List Char → Bool
  | [] => true
  | c :: cs => if c = '\n' then true else if sig c then false else noSigilBefore sig cs

/-- Lazily take the span content up to the first `}`, failing at a newline
(the regex `.` cannot cross it); returns the content and the characters after
the closing brace. -/
def takeToClose : List Char → Option (List Char × List Char)
  | [] => none
  | c :: cs =>
    if c = '}' then some ([], cs)
    else if c = '\n' then none
    else
      match takeToClose cs with
      | some (a, b) => some (c :: a, b)
      | none => none

/-- One `g`-flag scan of the template, splitting it into literal characters
and matched placeholder spans.  Every step consumes at least one character,
so the scan is run on fuel `cs.length` (structural recursion on the fuel
keeps the function kernel-reducible); the fuel can never run out. -/
def scanPassFuel (sig : Char → Bool) : Nat → List Char → List Piece
  | _, [] => []
  | 0, cs => cs.map Piece.lit
  | fuel + 1, c :: cs =>
    if sig c then
      match cs with
      | '{' :: rest =>
        if noSigilBefore sig rest then
          match takeToClose rest with
          | some (content, after) => Piece.ph c content :: scanPassFuel sig fuel after
          | none => Piece.lit c :: scanPassFuel sig fuel cs
        else Piece.lit c :: scanPassFuel sig fuel cs
      | _ => Piece.lit c :: scanPassFuel sig fuel cs
    else Piece.lit c :: scanPassFuel sig fuel cs

/-- One `g`-flag scan of a template. -/
def scanPass (sig : Char → Bool) (cs : List Char) : List Piece :=
  scanPassFuel sig cs.length cs

/-- Sigil predicate of the richer variant's regex `[$@]`. -/
def sigilRich (c : Char) : Bool := c = '$' || c = '@'

/-- Sigil predicate of the simpler variant's regex (`$` only). -/
def sigilSimple (c : Char) : Bool := c = '$'

/-- Does a piece list contain at least one placeholder match? -/
def anyPh : List Piece → Bool
  | [] => false
  | Piece.ph _ _ :: _ => true
  | Piece.lit _ :: ps => anyPh ps

/-- `template.match(this.#substitutionRegex)` is truthy (richer variant). -/
def hasMatch (s : String) : Bool := anyPh (scanPass sigilRich s.data)

/-- `value.match(this.#substitutionRegex)` is truthy (simpler variant). -/
def hasMatchSimple (s : String) : Bool := anyPh (scanPass sigilSimple s.data)

/-! ### The config store state and the substitution engine (richer variant,
`Config` with `@`-function placeholders and depth cap 10) -/

/-- The private state of a `Config` instance: `#config` (the definition tree),
`#data` (the resolved tree), `#functions`, and `#dictionary`.  The dictionary
is stored without its `self` entry: in the source `#dictionary.self` is a live
reference to `#config`, which the immutable model renders by redirecting
lookups of `"self"` to the current `config` (see `dictLookup`). -/
structure ConfigState where
  config : JSVal
  dictionary : JSVal
  functions : String → Option (List JSVal → JSVal)
  data : JSVal

/-- `this.#dictionary[namespace]` with the live `self ↦ #config` binding. -/
def dictLookup (st : ConfigState) (ns : String) : JSVal :=
  if ns = "self" then st.config else objGetVal st.dictionary ns

/-- The public `get(key, defaultValue)`: a falsy key (absent or `""`) returns
the whole resolved tree and ignores the default; otherwise `:` is normalised
to `.` and the path is looked up in `#data` with the default. -/
def publicGet (st : ConfigState) (key : Option String) (defaultValue : JSVal) : JSVal :=
  match key with
  | none => st.data
  | some k =>
    if k = "" then st.data
    else lodashGetD st.data (toPathChars (replaceColonDot k.data)) defaultValue

/-- The replace-callback of `#substitute` (richer variant): parse
`namespace:tuple` at the first colon, split the tuple on commas and trim;
dispatch on the sigil.  `@`: resolve the key and each argument through the
store's own `get` with the literal text as fallback and call the registered
function (`undefined` when none).  `$` (default case): the first comma token
that is not the literal `undefined` becomes the new running default
(`defaultValue = fallbackValue ?? defaultValue`), and the key is looked up in
`dictionary[namespace]` with that default.  When the content has no colon the
JS `namespace` variable is `undefined`, so the property accessed is the string
`"undefined"`.  Returns the substituted value and the updated running
default. -/
def evalMatch (st : ConfigState) (sg : Char) (valcs : List Char) (d : JSVal) : JSVal × JSVal :=
  let pr := splitFirstColon valcs
  let nsStr : String :=
    match pr with
    | some pr0 => String.mk pr0.1
    | none => "undefined"
  let tuplecs : List Char :=
    match pr with
    | some pr0 => pr0.2
    | none => []
  let tokens := (splitOnChar ',' tuplecs).map trimChars
  let keycs := tokens.headD []
  let args := tokens.tail
  if sg = '@' then
    let keyV := publicGet st (some (String.mk keycs)) (JSVal.str (String.mk keycs))
    let argVs := args.map (fun a => publicGet st (some (String.mk a)) (JSVal.str (String.mk a)))
    (match st.functions nsStr with
     | some f => f (keyV :: argVs)
     | none => JSVal.undef, d)
  else
    let fb := args.find? (fun a => a ≠ "undefined".data)
    let d' :=
      match fb with
      | some a => JSVal.str (String.mk a)
      | none => d
    (lodashGetD (dictLookup st nsStr) (toPathChars keycs) d', d')

/-- State accumulated while `template.replace` maps the callback over the
matches of one pass. -/
structure PassAcc where
  out : List Char
  dflt : JSVal
  last : Option (JSVal × Bool)

/-- Run the replace-callback over the pieces of one pass, splicing
`String(substitutedValue)` for each match, threading the mutable
`defaultValue`, and recording the last match's value together with its
`isFinalSubstitution` flag (`template === id + '{' + val + '}'`). -/
def applyPieces (st : ConfigState) (tcs : List Char) (ps : List Piece) (d0 : JSVal) : PassAcc :=
  ps.foldl
    (fun acc p =>
      match p with
      | Piece.lit c => { acc with out := acc.out ++ [c] }
      | Piece.ph sg valcs =>
        let isFin := tcs = sg :: '{' :: (valcs ++ ['}'])
        let r := evalMatch st sg valcs acc.dflt
        { out := acc.out ++ (jsToString r.1).data, dflt := r.2, last := some (r.1, isFin) })
    { out := [], dflt := d0, last := none }

/-- `#substitute` of the richer variant, with the depth counter re-expressed
as fuel: a call at depth `d` has fuel `10 - d`, and the guard `++depth > 10`
is `fuel = 0`.  A non-string template, exhausted fuel, or a template without a
regex match is returned unchanged; otherwise one replace pass runs and the
engine recurses on the result.  When the last match of this pass spanned the
whole template (`isFinalSubstitution`) and its substituted value is not a
string, that value is returned with its type preserved; otherwise the
recursively transformed string is returned. -/
def substituteFuel (st : ConfigState) : Nat → JSVal → JSVal → JSVal
  | _, JSVal.undef, _ => JSVal.undef
  | _, JSVal.null, _ => JSVal.null
  | _, JSVal.bool b, _ => JSVal.bool b
  | _, JSVal.num n, _ => JSVal.num n
  | _, JSVal.obj fs, _ => JSVal.obj fs
  | _, JSVal.arr xs, _ => JSVal.arr xs
  | 0, JSVal.str s, _ => JSVal.str s
  | fuel + 1, JSVal.str s, d =>
    if hasMatch s = false then JSVal.str s
    else
      let r := applyPieces st s.data (scanPass sigilRich s.data) d
      let transformed := substituteFuel st fuel (JSVal.str (String.mk r.out)) r.dflt
      match r.last with
      | some (sv, true) => if isStringV sv then transformed else sv
      | _ => transformed

/-- `this.#substitute(template, defaultValue, depth)` (richer variant, depth
cap 10): the call at depth `depth` runs with fuel `10 - depth`. -/
def substitute (st : ConfigState) (template defaultValue : JSVal) (depth : Nat) : JSVal :=
  substituteFuel st (10 - depth) template defaultValue

/-! ### `resolve()`: the per-leaf pipeline and the full pass -/

/-- Is a character a single or double quote? -/
def isQuoteChar (c : Char) : Bool := c = '\x27' || c = '\x22'

/-- `$value.replace(/^['"](.*)['"]$/, '$1')`: strip one leading and one
trailing quote character when both ends carry one (independently `'` or `"`)
and the middle contains no newline (the regex `.` cannot cross one); strings
of length below two, or without quotes at both ends, are unchanged. -/
def stripQuotes (s : String) : String :=
  match s.data with
  | c0 :: c1 :: rest =>
    let mid := (c1 :: rest).dropLast
    let lastC := (c1 :: rest).getLastD c1
    if isQuoteChar c0 ∧ isQuoteChar lastC ∧ mid.all (fun c => ¬ c = '\n') then
      String.mk mid
    else s
  | _ => s

/-- The special handling applied to each substituted entry inside `resolve()`:
a value that is unchanged or not a string is stored as-is; the exact strings
`undefined` / `null` / `true` / `false` become the corresponding typed values;
any other changed string has one layer of boundary quotes stripped. -/
def coerceLeaf (value sval : JSVal) : JSVal :=
  if sval = value then sval
  else
    match sval with
    | JSVal.str s =>
      if s = "undefined" then JSVal.undef
      else if s = "null" then JSVal.null
      else if s = "true" then JSVal.bool true
      else if s = "false" then JSVal.bool false
      else JSVal.str (stripQuotes s)
    | v => v

/-- The body of `resolve()`'s `forEach`: substitute one definition-tree leaf
(`defaultValue` starts as `undefined`, depth 0) and coerce the result. -/
def resolveLeaf (st : ConfigState) (value : JSVal) : JSVal :=
  coerceLeaf value (substitute st value JSVal.undef 0)

/-! ### `Util.flatten(config, { strict: true })`

Flattening recurses into non-empty objects and arrays; scalars and empty
containers are leaves.  Array indices become decimal path segments (the code
joins segments with `.` and lodash `set` re-splits them; segments are modelled
directly as lists). -/

mutual
def flattenVal : JSVal → List (List String × JSVal)
  | JSVal.obj [] => [([], JSVal.obj [])]
  | JSVal.obj (f :: fs) => flattenFields (f :: fs)
  | JSVal.arr [] => [([], JSVal.arr [])]
  | JSVal.arr (x :: xs) => flattenElems 0 (x :: xs)
  | v => [([], v)]

def flattenFields : List (String × JSVal) → List (List String × JSVal)
  | [] => []
  | (k, v) :: fs => (flattenVal v).map (fun pv => (k :: pv.1, pv.2)) ++ flattenFields fs

def flattenElems (i : Nat) : List JSVal → List (List String × JSVal)
  | [] => []
  | v :: vs => (flattenVal v).map (fun pv => (Nat.repr i :: pv.1, pv.2)) ++ flattenElems (i + 1) vs
end

/-- `Object.entries(Util.flatten(this.#config, { strict: true }))`: the
definition tree is an object at the root. -/
def flattenConfig : JSVal → List (List String × JSVal)
  | JSVal.obj fs => flattenFields fs
  | JSVal.arr xs => flattenElems 0 xs
  | _ => []

/-- The resolution pass of `resolve()`: walk the flattened definition tree in
insertion order and `set` each substituted-and-coerced leaf into `#data`
(which the `@`-placeholder lookups observe mid-pass through the store's own
`get`). -/
def resolvePass (st : ConfigState) : ConfigState :=
  { st with
    data :=
      (flattenConfig st.config).foldl
        (fun data pv =>
          lodashSet data pv.1
            (resolveLeaf { config := st.config, dictionary := st.dictionary,
                           functions := st.functions, data := data } pv.2))
        st.data }

/-- `resolve(dictionary)`: throw when `dictionary.self` is truthy, otherwise
merge the argument into `#dictionary` and run the resolution pass. -/
def resolveCall (st : ConfigState) (dictionary : JSVal) : Except String ConfigState :=
  if truthy (objGetVal dictionary "self") then
    Except.error "Cannot use reserved key \x22self\x22"
  else
    Except.ok (resolvePass { st with dictionary := mergeVal st.dictionary dictionary })

/-! ### The simpler variant (`Config.js` with `Flat`, depth cap 5)

Its regex is `/\${(?!.*?\$)(.*?)}/g` (only the `$` sigil), the inner parse is
the greedy `/^(.*)?:(.*)$/` (namespace up to the *last* colon), only the
second comma token is used as the default, and the replace-callback result is
always spliced textually (no type preservation). -/

/-- The state of the simpler variant: `#config` and a dictionary (again stored
without the live `self` entry). -/
structure SimpleState where
  config : JSVal
  dictionary : JSVal

/-- `dictionary[namespace]` of the simpler variant. -/
def dictLookupSimple (env : SimpleState) (ns : String) : JSVal :=
  if ns = "self" then env.config else objGetVal env.dictionary ns

/-- The replace-callback of the simpler `#substitute`. -/
def evalMatchSimple (env : SimpleState) (valcs : List Char) : JSVal :=
  let pr := splitLastColon valcs
  let nsStr : String :=
    match pr with
    | some pr0 => String.mk pr0.1
    | none => "undefined"
  let tuplecs : List Char :=
    match pr with
    | some pr0 => pr0.2
    | none => []
  let tokens := (splitOnChar ',' tuplecs).map trimChars
  let keycs := tokens.headD []
  let dflt : JSVal :=
    match tokens.get? 1 with
    | some a => JSVal.str (String.mk a)
    | none => JSVal.undef
  lodashGetD (dictLookupSimple env nsStr) (toPathChars keycs) dflt

/-- One replace pass of the simpler variant (plain textual splicing). -/
def passSimple (env : SimpleState) (ps : List Piece) : List Char :=
  ps.foldl
    (fun out p =>
      match p with
      | Piece.lit c => out ++ [c]
      | Piece.ph _ valcs => out ++ (jsToString (evalMatchSimple env valcs)).data)
    []

/-- The simpler `#substitute` with the depth counter as fuel (cap 5). -/
def substituteSimpleFuel (env : SimpleState) : Nat → JSVal → JSVal
  | _, JSVal.undef => JSVal.undef
  | _, JSVal.null => JSVal.null
  | _, JSVal.bool b => JSVal.bool b
  | _, JSVal.num n => JSVal.num n
  | _, JSVal.obj fs => JSVal.obj fs
  | _, JSVal.arr xs => JSVal.arr xs
  | 0, JSVal.str s => JSVal.str s
  | fuel + 1, JSVal.str s =>
    if hasMatchSimple s = false then JSVal.str s
    else substituteSimpleFuel env fuel
      (JSVal.str (String.mk (passSimple env (scanPass sigilSimple s.data))))

/-- `this.#substitute(value, dictionary, depth)` of the simpler variant. -/
def substituteSimple (env : SimpleState) (value : JSVal) (depth : Nat) : JSVal :=
  substituteSimpleFuel env (5 - depth) value

/-! ### Concrete states used by the claim theorems -/

/-- A store with an empty definition tree and dictionary and no registered
functions (fresh `new Config()`). -/
def stEmpty : ConfigState :=
  { config := JSVal.obj [], dictionary := JSVal.obj [],
    functions := fun _ => none, data := JSVal.obj [] }

/-- A circular template: `${self:a}` resolves (through the live `self`
dictionary) to the very leaf that contains it, growing by one `x` per pass. -/
def circT : String := "$\x7bself:a\x7dx"

/-- Store whose definition tree binds `a` to the circular template. -/
def stCirc : ConfigState :=
  { config := JSVal.obj [("a", JSVal.str circT)], dictionary := JSVal.obj [],
    functions := fun _ => none, data := JSVal.obj [] }

/-- The simpler variant's state for the same circular template. -/
def envCirc : SimpleState :=
  { config := JSVal.obj [("a", JSVal.str circT)], dictionary := JSVal.obj [] }

/-- A store whose dictionary has a namespace `e` with keys `a ↦ "A"` and
`b ↦ "B"`. -/
def stPair : ConfigState :=
  { config := JSVal.obj [],
    dictionary := JSVal.obj [("e", JSVal.obj [("a", JSVal.str "A"), ("b", JSVal.str "B")])],
    functions := fun _ => none, data := JSVal.obj [] }

/-- A store with empty config/dictionary, a caller-supplied function table,
and a resolved tree binding `app.name ↦ "zap"` (so a function-form keypath
lookup succeeds while its argument lookups fall back to their literal
text). -/
def stFn (F : String → Option (List JSVal → JSVal)) : ConfigState :=
  { config := JSVal.obj [], dictionary := JSVal.obj [], functions := F,
    data := JSVal.obj [("app", JSVal.obj [("name", JSVal.str "zap")])] }

/-! ### Path divergence

Two lodash paths are *divergent* when neither addresses a prefix of the other
— at the first differing position the segments must differ both as object
keys (strings) and as semantic segments (an array-index numeral is compared
by its value).  The flattened leaf paths of a well-formed definition tree are
pairwise divergent, which is what makes replaying the same `set` sequence a
no-op. -/

/-- A path segment viewed semantically: an array-index numeral or a plain
key. -/
def segKey (s : String) : Sum String Nat :=
  match isIndexSeg s with
  | some n => Sum.inr n
  | none => Sum.inl s

/-- `divergeSegs p q`: neither path is a prefix of the other, with the first
differing segments also differing semantically. -/
def divergeSegs : List String → List String → Bool
  | [], _ => false
  | _ :: _, [] => false
  | a :: p, b :: q => if a = b then divergeSegs p q else ¬ segKey a = segKey b

/-- All paths in the list pairwise divergent. -/
def pairwiseDiverge : List (List String) → Bool
  | [] => true
  | p :: ps => ps.all (fun q => divergeSegs p q) && pairwiseDiverge ps

/-- A stateful-looking `@`-function: appends `!` to its first (string)
argument — mirrors a registered function whose output depends on the resolved
tree it reads. -/
def appendBang : List JSVal → JSVal :=
  fun args =>
    match args with
    | JSVal.str s :: _ => JSVal.str (s ++ "!")
    | _ => JSVal.undef

/-- A store whose two leaves call `@`-functions on each other's resolved
values, so every resolution pass feeds on the previous one's output. -/
def stFeedback : ConfigState :=
  { config := JSVal.obj [("a", JSVal.str "@\x7bf:b\x7d"), ("b", JSVal.str "@\x7bg:a\x7d")],
    dictionary := JSVal.obj [],
    functions := fun ns => if ns = "f" ∨ ns = "g" then some appendBang else none,
    data := JSVal.obj [] }

/-- A function-free store with nested objects and an array, used to witness
idempotent resolution. -/
def stIdem : ConfigState :=
  { config := JSVal.obj [
      ("app", JSVal.obj [
        ("a", JSVal.str "a"),
        ("ref", JSVal.str "$\x7bself:app.a\x7d-$\x7bself:app.a\x7d")]),
      ("arr", JSVal.arr [JSVal.str "x", JSVal.str "$\x7bself:app.a\x7d"])],
    dictionary := JSVal.obj [],
    functions := fun _ => none,
    data := JSVal.obj [] }

/-! # Theorems -/

/-- C10: calling `get` with the empty string behaves exactly like calling it
with no key at all — both return the entire resolved tree and ignore the
`defaultValue` argument, because `if (!key)` treats every falsy key as
absent. -/
theorem claim10_get_falsy_key (st : ConfigState) (d : JSVal) :
    publicGet st (some "") d = st.data ∧ publicGet st none d = st.data :=
  ⟨rfl, rfl⟩

/-- C5: the substitution routine (total by construction in this model) stops
circular references via the depth counter — cap 10 in the richer variant and
5 in the simpler one — and hitting the cap returns the string as currently
(partially) substituted, still containing a placeholder, rather than raising
an error: the circular leaf `${self:a}x` comes back with one `x` appended per
pass (10 passes, then 5 passes). -/
theorem claim5_depth_cap_truncates :
    substitute stCirc (JSVal.str circT) JSVal.undef 0
        = JSVal.str "$\x7bself:a\x7dxxxxxxxxxxx"
      ∧ hasMatch "$\x7bself:a\x7dxxxxxxxxxxx" = true
      ∧ substituteSimple envCirc (JSVal.str circT) 0
        = JSVal.str "$\x7bself:a\x7dxxxxxx"
      ∧ hasMatchSimple "$\x7bself:a\x7dxxxxxx" = true := by
  decide

/-- C8 (counterexample): a `${...}` span without a `namespace:keypath` colon
is NOT treated as ordinary literal text: `${noColon}` matches the
substitution regex and resolves to `undefined` (the JS `namespace` variable
is `undefined`, so the dictionary lookup is `dictionary['undefined']`),
so the leaf does not resolve to itself. -/
theorem claim8_counterexample :
    resolveLeaf stEmpty (JSVal.str "$\x7bnoColon\x7d") = JSVal.undef
      ∧ resolveLeaf stEmpty (JSVal.str "$\x7bnoColon\x7d") ≠ JSVal.str "$\x7bnoColon\x7d" := by
  decide

/-- C8 (amended): a placeholder-like span that fails to match the
substitution regex — an unclosed `${`, a sigil not followed by `{`, or a span
followed by a further `$`/`@` on the same line — is treated as ordinary
literal text: the leaf resolves to itself unchanged and no error is raised.
A colon-less `${...}` span, however, does match the regex and resolves as a
lookup under an undefined namespace, yielding `undefined`. -/
theorem claim8_amended_nonmatching_literal :
    resolveLeaf stEmpty (JSVal.str "$\x7bunclosed") = JSVal.str "$\x7bunclosed"
      ∧ hasMatch "$\x7bunclosed" = false
      ∧ resolveLeaf stEmpty (JSVal.str "$ \x7bx:y\x7d") = JSVal.str "$ \x7bx:y\x7d"
      ∧ hasMatch "$ \x7bx:y\x7d" = false
      ∧ resolveLeaf stEmpty (JSVal.str "$\x7ba:b\x7d costs $5") = JSVal.str "$\x7ba:b\x7d costs $5"
      ∧ hasMatch "$\x7ba:b\x7d costs $5" = false
      ∧ resolveLeaf stEmpty (JSVal.str "$\x7bnoColon\x7d") = JSVal.undef := by
  decide

/-- C6 (counterexample): two sibling innermost placeholders on one line are
NOT both substituted in the same pass: the regex's lookahead `(?!.*?[$@])`
rejects any span that still has a sigil ahead of it on the same line, so a
single pass over `${e:a}-${e:b}` substitutes only the last span, producing
`${e:a}-B` rather than `A-B`. -/
theorem claim6_counterexample :
    (applyPieces stPair "$\x7be:a\x7d-$\x7be:b\x7d".data
        (scanPass sigilRich "$\x7be:a\x7d-$\x7be:b\x7d".data) JSVal.undef).out
        = "$\x7be:a\x7d-B".data
      ∧ (applyPieces stPair "$\x7be:a\x7d-$\x7be:b\x7d".data
          (scanPass sigilRich "$\x7be:a\x7d-$\x7be:b\x7d".data) JSVal.undef).out
        ≠ "A-B".data := by
  decide

/-- C6 (amended): in each pass exactly those innermost placeholders are
substituted that have no further sigil after them on the same line — i.e. the
last placeholder of each line; sibling placeholders on one line are therefore
substituted right-to-left across successive passes (all of them within the
depth budget), while placeholders on distinct lines are substituted within a
single pass. -/
theorem claim6_amended_last_per_line :
    (applyPieces stPair "$\x7be:a\x7d-$\x7be:b\x7d".data
        (scanPass sigilRich "$\x7be:a\x7d-$\x7be:b\x7d".data) JSVal.undef).out
        = "$\x7be:a\x7d-B".data
      ∧ (applyPieces stPair "$\x7be:a\x7d\n$\x7be:b\x7d".data
          (scanPass sigilRich "$\x7be:a\x7d\n$\x7be:b\x7d".data) JSVal.undef).out
        = "A\nB".data
      ∧ substitute stPair (JSVal.str "$\x7be:a\x7d-$\x7be:b\x7d") JSVal.undef 0
        = JSVal.str "A-B" := by
  decide

/-- C2 (counterexample): quote stripping does not require a *matching* pair:
the regex `/^['"](.*)['"]$/` accepts a single quote at the front and a double
quote at the back independently, so the default `'oops"` resolves to `oops`
instead of being preserved verbatim. -/
theorem claim2_counterexample :
    resolveLeaf stEmpty (JSVal.str "$\x7bself:app.nothing, \x27oops\x22\x7d") = JSVal.str "oops"
      ∧ resolveLeaf stEmpty (JSVal.str "$\x7bself:app.nothing, \x27oops\x22\x7d")
        ≠ JSVal.str "\x27oops\x22" := by
  decide

/-- C2 (amended): literal-token coercion is applied only when the final value
is a string differing from the untouched original (an unchanged `"true"` or
`"'keep'"` leaf is stored verbatim); the exact strings `undefined`, `null`,
`true`, `false` become the typed values; any other changed string has exactly
one layer of leading/trailing quote characters stripped, where the leading
and trailing quote may independently be `'` or `"` (they need not match), and
quote characters not exactly at both boundaries are preserved. -/
theorem claim2_amended_coercion :
    resolveLeaf stEmpty (JSVal.str "$\x7bself:app.nothing, \x27\x27hello\x27\x27\x7d")
        = JSVal.str "\x27hello\x27"
      ∧ resolveLeaf stEmpty (JSVal.str "$\x7bself:app.nothing, rich\x27s world\x7d")
        = JSVal.str "rich\x27s world"
      ∧ resolveLeaf stEmpty (JSVal.str "$\x7bself:app.nothing, \x27true\x27\x7d")
        = JSVal.str "true"
      ∧ resolveLeaf stEmpty (JSVal.str "$\x7bself:app.nothing, null\x7d") = JSVal.null
      ∧ resolveLeaf stEmpty (JSVal.str "$\x7bself:app.nothing, false\x7d") = JSVal.bool false
      ∧ resolveLeaf stEmpty (JSVal.str "$\x7bself:app.nothing, \x27oops\x22\x7d")
        = JSVal.str "oops"
      ∧ resolveLeaf stEmpty (JSVal.str "true") = JSVal.str "true"
      ∧ resolveLeaf stEmpty (JSVal.str "\x27keep\x27") = JSVal.str "\x27keep\x27" := by
  decide

/-- C1 (counterexample): an *empty* comma token is an eligible fallback: the
code's filter is `fb !== undefined && fb !== 'undefined'`, and split tokens
are always strings, so in `${self:app.nothing, , true}` the empty first token
wins and the leaf resolves to the empty string — not to boolean `true` as the
"first non-empty token" rule would require. -/
theorem claim1_counterexample :
    resolveLeaf stEmpty (JSVal.str "$\x7bself:app.nothing, , true\x7d") = JSVal.str ""
      ∧ resolveLeaf stEmpty (JSVal.str "$\x7bself:app.nothing, , true\x7d") ≠ JSVal.bool true := by
  decide

/-- C1 (amended): for a leaf consisting of a single value-form placeholder
whose keypath is absent from `dictionary[namespace]`, the result is the first
comma-separated whitespace-trimmed token that is not the literal string
`undefined` — empty tokens included (an empty token yields the empty string)
— picked left to right; when no such token exists the result is the
`undefined` sentinel.  In particular `${self:app.nothing, "undefined"}` is
the string `undefined`, `${self:app.nothing, true}` is boolean `true`, and
`${self:app.nothing}` is `undefined`. -/
theorem claim1_amended_default_fallback :
    resolveLeaf stEmpty (JSVal.str "$\x7bself:app.nothing, \x22undefined\x22\x7d")
        = JSVal.str "undefined"
      ∧ resolveLeaf stEmpty (JSVal.str "$\x7bself:app.nothing, true\x7d") = JSVal.bool true
      ∧ resolveLeaf stEmpty (JSVal.str "$\x7bself:app.nothing\x7d") = JSVal.undef
      ∧ resolveLeaf stEmpty (JSVal.str "$\x7bself:app.nothing, undefined, fallback\x7d")
        = JSVal.str "fallback"
      ∧ resolveLeaf stEmpty (JSVal.str "$\x7bself:app.nothing, , true\x7d") = JSVal.str ""
      ∧ resolveLeaf stEmpty (JSVal.str "$\x7bself:app.nothing, undefined\x7d") = JSVal.undef := by
  decide

/-- C4 (amended): `resolve(dictionary)` fails — with an error naming the
reserved key and before any merge or resolution touches the state — exactly
when `dictionary.self` is *truthy* (the code's check is `if
(dictionary.self)`); a falsy `self` entry is not rejected. -/
theorem claim4_amended_reserved_self (st : ConfigState) (dict : JSVal)
    (h : truthy (objGetVal dict "self") = true) :
    resolveCall st dict = Except.error "Cannot use reserved key \x22self\x22" := by
  simp [resolveCall, h]

/-- Witness for the C4 theorem at `resolve({ self: 'blah' })`. -/
theorem claim4_amended_reserved_self_witness :
    truthy (objGetVal (JSVal.obj [("self", JSVal.str "blah")]) "self") = true
      ∧ resolveCall stEmpty (JSVal.obj [("self", JSVal.str "blah")])
        = Except.error "Cannot use reserved key \x22self\x22" :=
  ⟨by decide, claim4_amended_reserved_self stEmpty (JSVal.obj [("self", JSVal.str "blah")]) (by decide)⟩

/-- C4 (counterexample): a dictionary that *contains* the key `self` with a
falsy value is not rejected: `resolve({ self: false })` succeeds. -/
theorem claim4_counterexample :
    (resolveCall stEmpty (JSVal.obj [("self", JSVal.bool false)])).toOption.isSome = true := by
  rfl

/-- Helper: the replace-callback evaluated on the function-form span
`eq:app.name, gozio-config` is exactly a lookup of the registered function
`eq`, applied to the store-`get` of the keypath and of each argument (each
with its literal text as fallback); an unregistered namespace yields
`undefined`.  Holds definitionally for every store state. -/
theorem evalMatch_at_eq (st : ConfigState) (d : JSVal) :
    evalMatch st '@' "eq:app.name, gozio-config".data d =
      (match st.functions "eq" with
       | some f => f [publicGet st (some "app.name") (JSVal.str "app.name"),
                      publicGet st (some "gozio-config") (JSVal.str "gozio-config")]
       | none => JSVal.undef, d) := rfl

/-- Helper: substituting a template that is exactly one `@`-placeholder
reduces to the callback value (type-preserved when it is not a string, since
the span is a final substitution). -/
theorem subst_single_fn (st : ConfigState) :
    substitute st (JSVal.str "@\x7beq:app.name, gozio-config\x7d") JSVal.undef 0 =
      (let sv := (evalMatch st '@' "eq:app.name, gozio-config".data JSVal.undef).1
       if isStringV sv then
         substituteFuel st 9 (JSVal.str (String.mk (jsToString sv).data))
           (evalMatch st '@' "eq:app.name, gozio-config".data JSVal.undef).2
       else sv) := rfl

/-- C7: for a function-form placeholder `@{eq:app.name, gozio-config}`, the
keypath is resolved through the store's own `get` with the literal keypath
text as the fallback value, each further argument is resolved the same way,
and the function registered under the namespace is invoked with those values;
if no function is registered under the namespace, the substitution result is
`undefined`.  (Stated over an arbitrary function table `F` and an arbitrary
non-string function result `v`, on a store whose resolved tree contains
`app.name` but not `gozio-config`, so both the successful lookup and the
literal-text fallback are exercised.) -/
theorem claim7_function_form (F : String → Option (List JSVal → JSVal))
    (f : List JSVal → JSVal) (v : JSVal) :
    (F "eq" = some f →
      f [publicGet (stFn F) (some "app.name") (JSVal.str "app.name"),
         publicGet (stFn F) (some "gozio-config") (JSVal.str "gozio-config")] = v →
      isStringV v = false →
      substitute (stFn F) (JSVal.str "@\x7beq:app.name, gozio-config\x7d") JSVal.undef 0 = v)
    ∧ (F "eq" = none →
      substitute (stFn F) (JSVal.str "@\x7beq:app.name, gozio-config\x7d") JSVal.undef 0
        = JSVal.undef) := by
  constructor
  · intro h1 h2 h3
    rw [subst_single_fn (stFn F), evalMatch_at_eq]
    have hF : (stFn F).functions = F := rfl
    rw [hF, h1]
    simp only []
    rw [h2, h3]
    simp
  · intro h1
    rw [subst_single_fn (stFn F), evalMatch_at_eq]
    have hF : (stFn F).functions = F := rfl
    rw [hF, h1]
    rfl

/-- Witness for the C7 theorem: the `eq` function of the test suite
(`(a, b) => Boolean(a === b)`) applied at the concrete store — the keypath
resolves to `"zap"` through the store's `get`, the argument falls back to its
literal text, and the unregistered-namespace half is exercised with the empty
table. -/
theorem claim7_function_form_witness :
    (fun ns => if ns = "eq" then
        some (fun args => match args with
          | a :: b :: _ => JSVal.bool (a = b)
          | _ => JSVal.bool false)
      else none : String → Option (List JSVal → JSVal)) "eq"
        = some (fun args => match args with
          | a :: b :: _ => JSVal.bool (a = b)
          | _ => JSVal.bool false)
      ∧ substitute (stFn (fun ns => if ns = "eq" then
            some (fun args => match args with
              | a :: b :: _ => JSVal.bool (a = b)
              | _ => JSVal.bool false)
          else none)) (JSVal.str "@\x7beq:app.name, gozio-config\x7d") JSVal.undef 0
        = JSVal.bool false
      ∧ substitute (stFn (fun _ => none)) (JSVal.str "@\x7beq:app.name, gozio-config\x7d")
          JSVal.undef 0
        = JSVal.undef := by
  refine ⟨rfl, ?_, ?_⟩
  · exact (claim7_function_form _ _ (JSVal.bool false)).1 rfl (by decide) (by decide)
  · exact (claim7_function_form (fun _ => none) (fun _ => JSVal.undef) JSVal.undef).2 rfl

/-- C3 (counterexample): resolution is not idempotent once `@`-function
placeholders read the resolved tree through the store's own `get`: with
`a = '@{f:b}'`, `b = '@{g:a}'` and `f`/`g` appending `!`, every pass feeds on
the previous pass's output, so the second resolution pass produces a tree
different from the first. -/
theorem claim3_counterexample :
    (resolvePass (resolvePass stFeedback)).data ≠ (resolvePass stFeedback).data := by
  decide

/-! ### Stability of `lodashSet` under replay

`lodashSet` writes are idempotent, and a write at a path divergent from `p`
preserves the fact that writing at `p` is a no-op.  Replaying the whole
`set` sequence of a resolution pass is therefore a no-op when the written
paths are pairwise divergent. -/

theorem upsert_upsert (fs : List (String × JSVal)) (k : String) (x : JSVal) :
    upsertField (upsertField fs k x) k x = upsertField fs k x := by
  induction fs with
  | nil => simp [upsertField]
  | cons kv fs ih =>
    obtain ⟨k0, v0⟩ := kv
    by_cases h : k0 = k <;> simp [upsertField, h, ih]

theorem find_upsert_self (fs : List (String × JSVal)) (k : String) (x : JSVal) :
    ((upsertField fs k x).find? (fun kv => kv.1 = k)).map (fun kv => kv.2) = some x := by
  induction fs with
  | nil => simp [upsertField]
  | cons kv fs ih =>
    obtain ⟨k0, v0⟩ := kv
    by_cases h : k0 = k <;> simp [upsertField, h, List.find?, ih]

theorem find_upsert_other (fs : List (String × JSVal)) (k k2 : String) (x : JSVal)
    (h : ¬ k = k2) :
    (upsertField fs k x).find? (fun kv => kv.1 = k2) = fs.find? (fun kv => kv.1 = k2) := by
  induction fs with
  | nil => simp [upsertField, List.find?, h]
  | cons kv fs ih =>
    obtain ⟨k0, v0⟩ := kv
    by_cases h0 : k0 = k
    · subst h0
      simp [upsertField, List.find?, h]
    · by_cases h2 : k0 = k2
      · subst h2
        simp [upsertField, h0, List.find?]
      · simp [upsertField, h0, h2, List.find?, ih]

theorem upsert_eq_self (fs : List (String × JSVal)) (k : String) (x : JSVal)
    (h : upsertField fs k x = fs) :
    (fs.find? (fun kv => kv.1 = k)).map (fun kv => kv.2) = some x := by
  induction fs with
  | nil => simp [upsertField] at h
  | cons kv fs ih =>
    obtain ⟨k0, v0⟩ := kv
    by_cases h0 : k0 = k
    · have hx : x = v0 := by simpa [upsertField, h0] using h
      have hstep : ((k0, v0) :: fs).find? (fun kv => kv.1 = k) = some (k0, v0) := by
        simp [List.find?, h0]
      rw [hstep]
      simp [hx]
    · have ht : upsertField fs k x = fs := by simpa [upsertField, h0] using h
      have hstep : ((k0, v0) :: fs).find? (fun kv => kv.1 = k) = fs.find? (fun kv => kv.1 = k) := by
        simp [List.find?, h0]
      rw [hstep]
      exact ih ht

theorem upsert_same (fs : List (String × JSVal)) (k : String) (x : JSVal)
    (h : (fs.find? (fun kv => kv.1 = k)).map (fun kv => kv.2) = some x) :
    upsertField fs k x = fs := by
  induction fs with
  | nil => simp [List.find?] at h
  | cons kv fs ih =>
    obtain ⟨k0, v0⟩ := kv
    by_cases h0 : k0 = k
    · have hstep : ((k0, v0) :: fs).find? (fun kv => kv.1 = k) = some (k0, v0) := by
        simp [List.find?, h0]
      rw [hstep] at h
      simp at h
      simp [upsertField, h0, h]
    · have hstep : ((k0, v0) :: fs).find? (fun kv => kv.1 = k) = fs.find? (fun kv => kv.1 = k) := by
        simp [List.find?, h0]
      rw [hstep] at h
      simp [upsertField, h0, ih h]

theorem get?_set_self (xs : List JSVal) (n : Nat) (x : JSVal) (h : n < xs.length) :
    (xs.set n x).get? n = some x := by
  induction xs generalizing n with
  | nil => simp at h
  | cons y ys ih =>
    cases n with
    | zero => simp
    | succ m =>
      simp only [List.set, List.get?]
      exact ih m (by simpa using h)

theorem get?_set_other (xs : List JSVal) (n m : Nat) (x : JSVal) (h : ¬ m = n) :
    (xs.set n x).get? m = xs.get? m := by
  induction xs generalizing n m with
  | nil => simp
  | cons y ys ih =>
    cases n with
    | zero =>
      cases m with
      | zero => exact absurd rfl h
      | succ m2 => simp [List.set]
    | succ n2 =>
      cases m with
      | zero => simp [List.set]
      | succ m2 =>
        simp only [List.set, List.get?]
        exact ih n2 m2 (fun he => h (by rw [he]))

theorem set_same (xs : List JSVal) (n : Nat) (x : JSVal) (h : xs.get? n = some x) :
    xs.set n x = xs := by
  induction xs generalizing n with
  | nil => simp at h
  | cons y ys ih =>
    cases n with
    | zero =>
      simp at h
      simp [List.set, h]
    | succ m =>
      simp only [List.get?] at h
      simp [List.set, ih m h]

theorem get?_append_pad (xs : List JSVal) (p : Nat) (x : JSVal) :
    (xs ++ List.replicate p JSVal.undef ++ [x]).get? (xs.length + p) = some x := by
  induction xs with
  | nil =>
    simp only [List.nil_append, List.length_nil, Nat.zero_add]
    induction p with
    | zero => simp
    | succ q ihq => simpa [List.replicate] using ihq
  | cons y ys ih => simpa [Nat.succ_add] using ih

theorem listSetPad_get_self (xs : List JSVal) (n : Nat) (x : JSVal) :
    (listSetPad xs n x).get? n = some x := by
  by_cases h : n < xs.length
  · unfold listSetPad
    rw [if_pos h]
    exact get?_set_self xs n x h
  · obtain ⟨p, rfl⟩ : ∃ p, n = xs.length + p := ⟨n - xs.length, by omega⟩
    unfold listSetPad
    rw [if_neg h]
    simpa using get?_append_pad xs p x

theorem listSetPad_same (xs : List JSVal) (n : Nat) (x : JSVal) (h : xs.get? n = some x) :
    listSetPad xs n x = xs := by
  have hn : n < xs.length := by
    by_contra hc
    rw [List.get?_eq_none.mpr (by omega)] at h
    cases h
  unfold listSetPad
  rw [if_pos hn]
  exact set_same xs n x h

theorem listSetPad_eq_self (xs : List JSVal) (n : Nat) (x : JSVal)
    (h : listSetPad xs n x = xs) : xs.get? n = some x := by
  rw [← h]
  exact listSetPad_get_self xs n x

theorem listSetPad_get_other (xs : List JSVal) (n m : Nat) (x w : JSVal)
    (hm : xs.get? m = some w) (hne : ¬ m = n) :
    (listSetPad xs n x).get? m = some w := by
  have hml : m < xs.length := by
    by_contra hc
    rw [List.get?_eq_none.mpr (by omega)] at hm
    cases hm
  by_cases h : n < xs.length
  · unfold listSetPad
    rw [if_pos h, get?_set_other xs n m x hne]
    exact hm
  · unfold listSetPad
    rw [if_neg h]
    rw [List.append_assoc, List.get?_append (by simpa using hml)]
    exact hm

theorem setStep_setStep (v : JSVal) (s : String) (x : JSVal) :
    setStep (setStep v s x) s x = setStep v s x := by
  cases v with
  | obj fs => simp [setStep, upsert_upsert]
  | arr xs =>
    cases h : isIndexSeg s with
    | some n =>
      simp only [setStep, h]
      rw [listSetPad_same _ n x (listSetPad_get_self xs n x)]
    | none => simp [setStep, h]
  | undef => rfl
  | null => rfl
  | bool b => rfl
  | num n => rfl
  | str s0 => rfl

theorem setStep_same (v : JSVal) (s : String) (c : JSVal) (h : getStep v s = some c) :
    setStep v s c = v := by
  cases v with
  | obj fs =>
    simp only [getStep] at h
    simp [setStep, upsert_same fs s c h]
  | arr xs =>
    cases hidx : isIndexSeg s with
    | some n =>
      simp only [getStep, hidx] at h
      simp [setStep, hidx, listSetPad_same xs n c h]
    | none => simp [setStep, hidx]
  | undef => simp [getStep] at h
  | null => simp [getStep] at h
  | bool b => simp [getStep] at h
  | num n => simp [getStep] at h
  | str s0 => simp [getStep] at h

theorem getStep_setStep_other (v : JSVal) (s s2 : String) (z w : JSVal)
    (hs : ¬ s = s2) (hk : ¬ segKey s = segKey s2) (h : getStep v s2 = some w) :
    getStep (setStep v s z) s2 = some w := by
  cases v with
  | obj fs =>
    simp only [getStep] at h ⊢
    simp only [setStep]
    rw [find_upsert_other fs s s2 z hs]
    exact h
  | arr xs =>
    cases h2 : isIndexSeg s2 with
    | none => simp [getStep, h2] at h
    | some m =>
      cases h1 : isIndexSeg s with
      | none =>
        simp only [setStep, h1]
        exact h
      | some n =>
        have hnm : ¬ m = n := by
          intro he
          exact hk (by simp [segKey, h1, h2, he])
        simp only [getStep, h2] at h
        simp only [setStep, h1, getStep, h2]
        exact listSetPad_get_other xs n m z w h hnm
  | undef => simp [getStep] at h
  | null => simp [getStep] at h
  | bool b => simp [getStep] at h
  | num n => simp [getStep] at h
  | str s0 => simp [getStep] at h

theorem lodashSet_scalar (p : List String) (v x : JSVal) (hv : isContainer v = false) :
    lodashSet v p x = v := by
  cases v with
  | obj fs => simp [isContainer] at hv
  | arr xs => simp [isContainer] at hv
  | undef => cases p with
    | nil => rfl
    | cons s r => cases r <;> rfl
  | null => cases p with
    | nil => rfl
    | cons s r => cases r <;> rfl
  | bool b => cases p with
    | nil => rfl
    | cons s r => cases r <;> rfl
  | num n => cases p with
    | nil => rfl
    | cons s r => cases r <;> rfl
  | str s0 => cases p with
    | nil => rfl
    | cons s r => cases r <;> rfl

theorem setStep_container (v : JSVal) (s : String) (z : JSVal)
    (hv : isContainer v = true) : isContainer (setStep v s z) = true := by
  cases v with
  | obj fs => rfl
  | arr xs => cases h : isIndexSeg s <;> simp [setStep, h, isContainer]
  | undef => simp [isContainer] at hv
  | null => simp [isContainer] at hv
  | bool b => simp [isContainer] at hv
  | num n => simp [isContainer] at hv
  | str s0 => simp [isContainer] at hv

theorem lodashSet_container (p : List String) (v x : JSVal) (hp : p ≠ [])
    (hv : isContainer v = true) : isContainer (lodashSet v p x) = true := by
  cases p with
  | nil => exact absurd rfl hp
  | cons s r =>
    cases r with
    | nil => exact setStep_container v s x hv
    | cons s2 r2 => exact setStep_container v s _ hv

theorem childFor_container (v : JSVal) (s s2 : String) :
    isContainer (childFor v s s2) = true := by
  unfold childFor
  cases h : isContainer ((getStep v s).getD JSVal.undef) with
  | true => simpa [h]
  | false =>
    simp only [h]
    cases h2 : isIndexSeg s2 <;> simp [h2, isContainer]

theorem childFor_of_get (v : JSVal) (s s2 : String) (w : JSVal)
    (hg : getStep v s = some w) (hw : isContainer w = true) :
    childFor v s s2 = w := by
  simp [childFor, hg, hw]

theorem lodashSet_arr_nonindex (a : String) (p' : List String) (xs : List JSVal) (x : JSVal)
    (h : isIndexSeg a = none) : lodashSet (JSVal.arr xs) (a :: p') x = JSVal.arr xs := by
  cases p' <;> simp [lodashSet, setStep, h]

theorem lodashSet_set_self : ∀ (p : List String) (v x : JSVal),
    lodashSet (lodashSet v p x) p x = lodashSet v p x := by
  intro p
  induction p with
  | nil => intro v x; rfl
  | cons s rest ih =>
    intro v x
    cases rest with
    | nil => exact setStep_setStep v s x
    | cons s2 r2 =>
      have main : ∀ (w : JSVal),
          getStep (setStep w s (lodashSet (childFor w s s2) (s2 :: r2) x)) s
              = some (lodashSet (childFor w s s2) (s2 :: r2) x) →
          lodashSet (lodashSet w (s :: s2 :: r2) x) (s :: s2 :: r2) x
              = lodashSet w (s :: s2 :: r2) x := by
        intro w hg
        have hWc : isContainer (lodashSet (childFor w s s2) (s2 :: r2) x) = true :=
          lodashSet_container _ _ x (by simp) (childFor_container w s s2)
        have hcf : childFor (setStep w s (lodashSet (childFor w s s2) (s2 :: r2) x)) s s2
            = lodashSet (childFor w s s2) (s2 :: r2) x :=
          childFor_of_get _ _ _ _ hg hWc
        have hout : lodashSet (lodashSet w (s :: s2 :: r2) x) (s :: s2 :: r2) x
            = setStep (setStep w s (lodashSet (childFor w s s2) (s2 :: r2) x)) s
                (lodashSet
                  (childFor (setStep w s (lodashSet (childFor w s s2) (s2 :: r2) x)) s s2)
                  (s2 :: r2) x) := rfl
        rw [hout, hcf, ih (childFor w s s2) x]
        exact setStep_same _ s _ hg
      cases v with
      | obj fs =>
        refine main (JSVal.obj fs) ?_
        simp only [setStep, getStep]
        exact find_upsert_self fs s _
      | arr xs =>
        cases hidx : isIndexSeg s with
        | none =>
          rw [lodashSet_arr_nonindex s (s2 :: r2) xs x hidx,
              lodashSet_arr_nonindex s (s2 :: r2) xs x hidx]
        | some n =>
          refine main (JSVal.arr xs) ?_
          simp only [setStep, hidx, getStep]
          exact listSetPad_get_self xs n _
      | undef =>
        rw [lodashSet_scalar _ JSVal.undef x rfl, lodashSet_scalar _ JSVal.undef x rfl]
      | null =>
        rw [lodashSet_scalar _ JSVal.null x rfl, lodashSet_scalar _ JSVal.null x rfl]
      | bool b =>
        rw [lodashSet_scalar _ (JSVal.bool b) x rfl, lodashSet_scalar _ (JSVal.bool b) x rfl]
      | num n =>
        rw [lodashSet_scalar _ (JSVal.num n) x rfl, lodashSet_scalar _ (JSVal.num n) x rfl]
      | str s0 =>
        rw [lodashSet_scalar _ (JSVal.str s0) x rfl, lodashSet_scalar _ (JSVal.str s0) x rfl]

theorem getStep_of_setStep_eq_obj (fs : List (String × JSVal)) (a : String) (z : JSVal)
    (h : setStep (JSVal.obj fs) a z = JSVal.obj fs) : getStep (JSVal.obj fs) a = some z := by
  simp only [setStep] at h
  have h2 : upsertField fs a z = fs := by injection h
  simpa [getStep] using upsert_eq_self fs a z h2

theorem getStep_of_setStep_eq_arr (xs : List JSVal) (a : String) (n : Nat) (z : JSVal)
    (hidx : isIndexSeg a = some n)
    (h : setStep (JSVal.arr xs) a z = JSVal.arr xs) : getStep (JSVal.arr xs) a = some z := by
  simp only [setStep, hidx] at h
  have h2 : listSetPad xs n z = xs := by injection h
  simp only [getStep, hidx]
  exact listSetPad_eq_self xs n z h2

theorem getStep_setStep_self_obj (fs : List (String × JSVal)) (a : String) (z : JSVal) :
    getStep (setStep (JSVal.obj fs) a z) a = some z := by
  simp only [setStep, getStep]
  exact find_upsert_self fs a z

theorem getStep_setStep_self_arr (xs : List JSVal) (a : String) (n : Nat) (z : JSVal)
    (hidx : isIndexSeg a = some n) :
    getStep (setStep (JSVal.arr xs) a z) a = some z := by
  simp only [setStep, hidx, getStep]
  exact listSetPad_get_self xs n z

/-- Core of stability preservation when the two paths differ already at their
head segments: the foreign write cannot move the value sitting under `a`. -/
theorem stable_mono_diff_core (a : String) (p' : List String) (v v1 x : JSVal)
    (hstab : lodashSet v (a :: p') x = v)
    (hget_of_set : ∀ z : JSVal, setStep v a z = v → getStep v a = some z)
    (hpres : ∀ w : JSVal, getStep v a = some w → getStep v1 a = some w) :
    lodashSet v1 (a :: p') x = v1 := by
  cases p' with
  | nil =>
    have hg : getStep v a = some x := hget_of_set x hstab
    exact setStep_same v1 a x (hpres x hg)
  | cons s2p r2p =>
    have hg : getStep v a = some (lodashSet (childFor v a s2p) (s2p :: r2p) x) :=
      hget_of_set _ hstab
    have hWc : isContainer (lodashSet (childFor v a s2p) (s2p :: r2p) x) = true :=
      lodashSet_container _ _ x (by simp) (childFor_container v a s2p)
    have hg1 : getStep v1 a = some (lodashSet (childFor v a s2p) (s2p :: r2p) x) := hpres _ hg
    have hcf : childFor v1 a s2p = lodashSet (childFor v a s2p) (s2p :: r2p) x :=
      childFor_of_get _ _ _ _ hg1 hWc
    show setStep v1 a (lodashSet (childFor v1 a s2p) (s2p :: r2p) x) = v1
    rw [hcf, lodashSet_set_self]
    exact setStep_same v1 a _ hg1

/-- Core of stability preservation when the two paths share their head
segment and diverge deeper: recurse on the shared child. -/
theorem stable_mono_same_core (a s2p : String) (r2p : List String) (s2q : String)
    (r2q : List String) (v x y : JSVal)
    (IH : ∀ (q : List String) (w x2 y2 : JSVal), divergeSegs (s2p :: r2p) q = true →
        lodashSet w (s2p :: r2p) x2 = w →
        lodashSet (lodashSet w q y2) (s2p :: r2p) x2 = lodashSet w q y2)
    (hdiv : divergeSegs (s2p :: r2p) (s2q :: r2q) = true)
    (hstab : lodashSet v (a :: s2p :: r2p) x = v)
    (hgset : ∀ z : JSVal, getStep (setStep v a z) a = some z)
    (hget_of_set : ∀ z : JSVal, setStep v a z = v → getStep v a = some z) :
    lodashSet (lodashSet v (a :: s2q :: r2q) y) (a :: s2p :: r2p) x
      = lodashSet v (a :: s2q :: r2q) y := by
  have hW : getStep v a = some (lodashSet (childFor v a s2p) (s2p :: r2p) x) :=
    hget_of_set _ hstab
  have hWc : isContainer (lodashSet (childFor v a s2p) (s2p :: r2p) x) = true :=
    lodashSet_container _ _ x (by simp) (childFor_container v a s2p)
  have hWstab : lodashSet (lodashSet (childFor v a s2p) (s2p :: r2p) x) (s2p :: r2p) x
      = lodashSet (childFor v a s2p) (s2p :: r2p) x :=
    lodashSet_set_self (s2p :: r2p) (childFor v a s2p) x
  generalize hWdef : lodashSet (childFor v a s2p) (s2p :: r2p) x = W at hW hWc hWstab
  have hcfq : childFor v a s2q = W := childFor_of_get v a s2q W hW hWc
  have hq : lodashSet v (a :: s2q :: r2q) y = setStep v a (lodashSet W (s2q :: r2q) y) := by
    show setStep v a (lodashSet (childFor v a s2q) (s2q :: r2q) y) = _
    rw [hcfq]
  have hZc : isContainer (lodashSet W (s2q :: r2q) y) = true :=
    lodashSet_container _ _ y (by simp) hWc
  have hg1 : getStep (setStep v a (lodashSet W (s2q :: r2q) y)) a
      = some (lodashSet W (s2q :: r2q) y) := hgset _
  have hcf1 : childFor (setStep v a (lodashSet W (s2q :: r2q) y)) a s2p
      = lodashSet W (s2q :: r2q) y := childFor_of_get _ _ _ _ hg1 hZc
  have hinner : lodashSet (lodashSet W (s2q :: r2q) y) (s2p :: r2p) x
      = lodashSet W (s2q :: r2q) y := IH (s2q :: r2q) W x y hdiv hWstab
  rw [hq]
  show setStep (setStep v a (lodashSet W (s2q :: r2q) y)) a
      (lodashSet (childFor (setStep v a (lodashSet W (s2q :: r2q) y)) a s2p) (s2p :: r2p) x)
    = setStep v a (lodashSet W (s2q :: r2q) y)
  rw [hcf1, hinner]
  exact setStep_same _ a _ hg1

theorem lodashSet_stable_mono : ∀ (p q : List String) (v x y : JSVal),
    divergeSegs p q = true → lodashSet v p x = v →
    lodashSet (lodashSet v q y) p x = lodashSet v q y := by
  intro p
  induction p with
  | nil =>
    intro q v x y hdiv _
    simp [divergeSegs] at hdiv
  | cons a p' ih =>
    intro q v x y hdiv hstab
    cases q with
    | nil => simp [divergeSegs] at hdiv
    | cons b q' =>
      by_cases hvc : isContainer v = true
      case neg =>
        have hv' : isContainer v = false := by simpa using hvc
        rw [lodashSet_scalar (b :: q') v y hv']
        exact hstab
      case pos =>
        by_cases hab : a = b
        · subst hab
          simp only [divergeSegs, if_pos rfl] at hdiv
          cases p' with
          | nil => simp [divergeSegs] at hdiv
          | cons s2p r2p =>
            cases q' with
            | nil => simp [divergeSegs] at hdiv
            | cons s2q r2q =>
              cases v with
              | obj fs =>
                exact stable_mono_same_core a s2p r2p s2q r2q (JSVal.obj fs) x y ih hdiv hstab
                  (getStep_setStep_self_obj fs a) (getStep_of_setStep_eq_obj fs a)
              | arr xs =>
                cases hidx : isIndexSeg a with
                | none =>
                  rw [lodashSet_arr_nonindex a (s2q :: r2q) xs y hidx,
                      lodashSet_arr_nonindex a (s2p :: r2p) xs x hidx]
                | some n =>
                  exact stable_mono_same_core a s2p r2p s2q r2q (JSVal.arr xs) x y ih hdiv hstab
                    (fun z => getStep_setStep_self_arr xs a n z hidx)
                    (fun z => getStep_of_setStep_eq_arr xs a n z hidx)
              | undef => simp [isContainer] at hvc
              | null => simp [isContainer] at hvc
              | bool b0 => simp [isContainer] at hvc
              | num n0 => simp [isContainer] at hvc
              | str s0 => simp [isContainer] at hvc
        · have hk : ¬ segKey a = segKey b := by
            simp only [divergeSegs, if_neg hab] at hdiv
            simpa using hdiv
          have hq : lodashSet v (b :: q') y
              = setStep v b (match q' with
                  | [] => y
                  | s2q :: r2q => lodashSet (childFor v b s2q) (s2q :: r2q) y) := by
            cases q' <;> rfl
          have hpres : ∀ w : JSVal, getStep v a = some w →
              getStep (lodashSet v (b :: q') y) a = some w := by
            intro w hw
            rw [hq]
            exact getStep_setStep_other v b a _ w (fun he => hab he.symm)
              (fun he => hk he.symm) hw
          cases v with
          | obj fs =>
            exact stable_mono_diff_core a p' (JSVal.obj fs) _ x hstab
              (getStep_of_setStep_eq_obj fs a) hpres
          | arr xs =>
            cases hidx : isIndexSeg a with
            | none =>
              have harr : ∀ (w : JSVal), (∃ ys, w = JSVal.arr ys) →
                  lodashSet w (a :: p') x = w := by
                intro w hw
                obtain ⟨ys, rfl⟩ := hw
                exact lodashSet_arr_nonindex a p' ys x hidx
              have hshape : ∃ ys, lodashSet (JSVal.arr xs) (b :: q') y = JSVal.arr ys := by
                cases q' with
                | nil =>
                  show ∃ ys, setStep (JSVal.arr xs) b y = JSVal.arr ys
                  cases hb : isIndexSeg b with
                  | some m => exact ⟨listSetPad xs m y, by simp [setStep, hb]⟩
                  | none => exact ⟨xs, by simp [setStep, hb]⟩
                | cons s2q r2q =>
                  show ∃ ys, setStep (JSVal.arr xs) b
                      (lodashSet (childFor (JSVal.arr xs) b s2q) (s2q :: r2q) y) = JSVal.arr ys
                  cases hb : isIndexSeg b with
                  | some m =>
                    exact ⟨listSetPad xs m
                      (lodashSet (childFor (JSVal.arr xs) b s2q) (s2q :: r2q) y),
                      by simp [setStep, hb]⟩
                  | none => exact ⟨xs, by simp [setStep, hb]⟩
              exact harr _ hshape
            | some n =>
              exact stable_mono_diff_core a p' (JSVal.arr xs) _ x hstab
                (fun z => getStep_of_setStep_eq_arr xs a n z hidx) hpres
          | undef => simp [isContainer] at hvc
          | null => simp [isContainer] at hvc
          | bool b0 => simp [isContainer] at hvc
          | num n0 => simp [isContainer] at hvc
          | str s0 => simp [isContainer] at hvc

theorem foldSet_stable (es : List (List String × JSVal)) (p : List String) (x : JSVal)
    (h : ∀ e ∈ es, divergeSegs p e.1 = true) :
    ∀ v, lodashSet v p x = v →
    lodashSet (es.foldl (fun d e => lodashSet d e.1 e.2) v) p x
      = es.foldl (fun d e => lodashSet d e.1 e.2) v := by
  induction es with
  | nil => intro v hv; exact hv
  | cons e es ihe =>
    intro v hv
    simp only [List.foldl_cons]
    exact ihe (fun e2 he2 => h e2 (List.mem_cons_of_mem _ he2)) _
      (lodashSet_stable_mono p e.1 v x e.2 (h e (List.mem_cons_self _ _)) hv)

theorem foldSet_idem (es : List (List String × JSVal))
    (h : pairwiseDiverge (es.map Prod.fst) = true) :
    ∀ v, es.foldl (fun d e => lodashSet d e.1 e.2)
        (es.foldl (fun d e => lodashSet d e.1 e.2) v)
      = es.foldl (fun d e => lodashSet d e.1 e.2) v := by
  induction es with
  | nil => intro v; rfl
  | cons e es ihe =>
    intro v
    simp only [List.map_cons, pairwiseDiverge, Bool.and_eq_true, List.all_eq_true] at h
    obtain ⟨h1, h2⟩ := h
    simp only [List.foldl_cons]
    have hstab0 : lodashSet (lodashSet v e.1 e.2) e.1 e.2 = lodashSet v e.1 e.2 :=
      lodashSet_set_self _ _ _
    have hstabF : lodashSet (es.foldl (fun d e2 => lodashSet d e2.1 e2.2)
          (lodashSet v e.1 e.2)) e.1 e.2
        = es.foldl (fun d e2 => lodashSet d e2.1 e2.2) (lodashSet v e.1 e.2) :=
      foldSet_stable es e.1 e.2
        (fun e2 he2 => h1 e2.1 (List.mem_map_of_mem _ he2)) _ hstab0
    rw [hstabF]
    exact ihe h2 _

/-! ### With no registered functions, substitution never reads the resolved
tree (`#data` is only consulted by the `@` branch), so each pass writes
values that do not depend on the accumulating data. -/

theorem evalMatch_data_irrel (cfg dict : JSVal) (F : String → Option (List JSVal → JSVal))
    (d1 d2 : JSVal) (hf : ∀ ns, F ns = none) (sg : Char) (valcs : List Char) (dflt : JSVal) :
    evalMatch ⟨cfg, dict, F, d1⟩ sg valcs dflt = evalMatch ⟨cfg, dict, F, d2⟩ sg valcs dflt := by
  by_cases hsg : sg = '@'
  · simp [evalMatch, hsg, hf]
  · simp [evalMatch, hsg, dictLookup]

theorem foldPieces_data_irrel (cfg dict : JSVal) (F : String → Option (List JSVal → JSVal))
    (d1 d2 : JSVal) (hf : ∀ ns, F ns = none) (tcs : List Char) :
    ∀ (ps : List Piece) (acc : PassAcc),
      ps.foldl (fun acc p => match p with
        | Piece.lit c => { acc with out := acc.out ++ [c] }
        | Piece.ph sg valcs =>
          let isFin := tcs = sg :: '{' :: (valcs ++ ['}'])
          let r := evalMatch ⟨cfg, dict, F, d1⟩ sg valcs acc.dflt
          { out := acc.out ++ (jsToString r.1).data, dflt := r.2, last := some (r.1, isFin) }) acc
      = ps.foldl (fun acc p => match p with
        | Piece.lit c => { acc with out := acc.out ++ [c] }
        | Piece.ph sg valcs =>
          let isFin := tcs = sg :: '{' :: (valcs ++ ['}'])
          let r := evalMatch ⟨cfg, dict, F, d2⟩ sg valcs acc.dflt
          { out := acc.out ++ (jsToString r.1).data, dflt := r.2, last := some (r.1, isFin) }) acc := by
  intro ps
  induction ps with
  | nil => intro acc; rfl
  | cons p ps ih =>
    intro acc
    cases p with
    | lit c =>
      simp only [List.foldl_cons]
      exact ih _
    | ph sg valcs =>
      simp only [List.foldl_cons]
      rw [evalMatch_data_irrel cfg dict F d1 d2 hf sg valcs acc.dflt]
      exact ih _

theorem applyPieces_data_irrel (cfg dict : JSVal) (F : String → Option (List JSVal → JSVal))
    (d1 d2 : JSVal) (hf : ∀ ns, F ns = none) (tcs : List Char) (ps : List Piece) (d0 : JSVal) :
    applyPieces ⟨cfg, dict, F, d1⟩ tcs ps d0 = applyPieces ⟨cfg, dict, F, d2⟩ tcs ps d0 :=
  foldPieces_data_irrel cfg dict F d1 d2 hf tcs ps { out := [], dflt := d0, last := none }

theorem substituteFuel_data_irrel (cfg dict : JSVal) (F : String → Option (List JSVal → JSVal))
    (d1 d2 : JSVal) (hf : ∀ ns, F ns = none) :
    ∀ (fuel : Nat) (t d : JSVal),
      substituteFuel ⟨cfg, dict, F, d1⟩ fuel t d = substituteFuel ⟨cfg, dict, F, d2⟩ fuel t d := by
  intro fuel
  induction fuel with
  | zero => intro t d; cases t <;> rfl
  | succ n ihn =>
    intro t d
    cases t with
    | str s =>
      simp only [substituteFuel]
      by_cases hm : hasMatch s = false
      · simp [hm]
      · rw [if_neg hm, if_neg hm,
          applyPieces_data_irrel cfg dict F d1 d2 hf s.data (scanPass sigilRich s.data) d]
        simp only [ihn]
    | undef => rfl
    | null => rfl
    | bool b => rfl
    | num n0 => rfl
    | obj fs => rfl
    | arr xs => rfl

theorem resolveLeaf_data_irrel (cfg dict : JSVal) (F : String → Option (List JSVal → JSVal))
    (d1 d2 : JSVal) (hf : ∀ ns, F ns = none) (v : JSVal) :
    resolveLeaf ⟨cfg, dict, F, d1⟩ v = resolveLeaf ⟨cfg, dict, F, d2⟩ v := by
  unfold resolveLeaf substitute
  rw [substituteFuel_data_irrel cfg dict F d1 d2 hf]

theorem resolvePass_pure (cfg dict : JSVal) (F : String → Option (List JSVal → JSVal))
    (hf : ∀ ns, F ns = none) :
    ∀ (es : List (List String × JSVal)) (d : JSVal),
      es.foldl (fun data pv => lodashSet data pv.1
        (resolveLeaf { config := cfg, dictionary := dict, functions := F, data := data } pv.2)) d
      = (es.map (fun pv => (pv.1, resolveLeaf ⟨cfg, dict, F, JSVal.undef⟩ pv.2))).foldl
          (fun dd e => lodashSet dd e.1 e.2) d := by
  intro es
  induction es with
  | nil => intro d; rfl
  | cons pv es ih =>
    intro d
    simp only [List.foldl_cons, List.map_cons]
    rw [resolveLeaf_data_irrel cfg dict F d JSVal.undef hf pv.2]
    exact ih _

theorem resolvePass_idem (st : ConfigState) (hf : ∀ ns, st.functions ns = none)
    (hp : pairwiseDiverge ((flattenConfig st.config).map Prod.fst) = true) :
    resolvePass (resolvePass st) = resolvePass st := by
  obtain ⟨cfg, dict, F, d⟩ := st
  have hf' : ∀ ns, F ns = none := hf
  have hp' : pairwiseDiverge
      (((flattenConfig cfg).map
          (fun pv => (pv.1, resolveLeaf ⟨cfg, dict, F, JSVal.undef⟩ pv.2))).map Prod.fst)
      = true := by
    simpa [List.map_map, Function.comp] using hp
  have hdata : ∀ d0 : JSVal,
      (flattenConfig cfg).foldl (fun data pv => lodashSet data pv.1
        (resolveLeaf { config := cfg, dictionary := dict, functions := F, data := data } pv.2)) d0
      = ((flattenConfig cfg).map
          (fun pv => (pv.1, resolveLeaf ⟨cfg, dict, F, JSVal.undef⟩ pv.2))).foldl
          (fun dd e => lodashSet dd e.1 e.2) d0 :=
    resolvePass_pure cfg dict F hf' (flattenConfig cfg)
  show (⟨cfg, dict, F,
      (flattenConfig cfg).foldl (fun data pv => lodashSet data pv.1
        (resolveLeaf { config := cfg, dictionary := dict, functions := F, data := data } pv.2))
        ((flattenConfig cfg).foldl (fun data pv => lodashSet data pv.1
          (resolveLeaf { config := cfg, dictionary := dict, functions := F, data := data } pv.2))
          d)⟩ : ConfigState)
    = ⟨cfg, dict, F,
      (flattenConfig cfg).foldl (fun data pv => lodashSet data pv.1
        (resolveLeaf { config := cfg, dictionary := dict, functions := F, data := data } pv.2)) d⟩
  have hfold : (flattenConfig cfg).foldl (fun data pv => lodashSet data pv.1
        (resolveLeaf { config := cfg, dictionary := dict, functions := F, data := data } pv.2))
        ((flattenConfig cfg).foldl (fun data pv => lodashSet data pv.1
          (resolveLeaf { config := cfg, dictionary := dict, functions := F, data := data } pv.2))
          d)
      = (flattenConfig cfg).foldl (fun data pv => lodashSet data pv.1
          (resolveLeaf { config := cfg, dictionary := dict, functions := F, data := data } pv.2))
          d := by
    rw [hdata, hdata]
    exact foldSet_idem _ hp' d
  rw [hfold]

/-- C3 (amended): when no `@`-functions are registered (the value-form lookups
read only the dictionary and the live definition tree, which a resolution
pass never mutates) and the flattened definition paths are pairwise divergent
(true of every well-formed tree), calling `resolve()` twice in a row with no
intervening merge, set, or dictionary change yields identical resolved trees:
the second call returns exactly the state the first one produced. -/
theorem claim3_amended_idempotent (st : ConfigState) (dfs : List (String × JSVal))
    (hf : ∀ ns, st.functions ns = none)
    (hd : st.dictionary = JSVal.obj dfs)
    (hp : pairwiseDiverge ((flattenConfig st.config).map Prod.fst) = true) :
    resolveCall st (JSVal.obj []) = Except.ok (resolvePass st)
      ∧ resolveCall (resolvePass st) (JSVal.obj []) = Except.ok (resolvePass st) := by
  have hmerge : ∀ (w : ConfigState), w.dictionary = JSVal.obj dfs →
      resolveCall w (JSVal.obj []) = Except.ok (resolvePass w) := by
    intro w hw
    have hstep : resolveCall w (JSVal.obj [])
        = Except.ok (resolvePass { w with dictionary := mergeVal w.dictionary (JSVal.obj []) }) :=
      rfl
    have hm : mergeVal w.dictionary (JSVal.obj []) = w.dictionary := by
      rw [hw]
      rfl
    rw [hstep, hm]
  refine ⟨hmerge st hd, ?_⟩
  have h2 : (resolvePass st).dictionary = JSVal.obj dfs := by
    rw [show (resolvePass st).dictionary = st.dictionary from rfl, hd]
  rw [hmerge (resolvePass st) h2, resolvePass_idem st hf hp]

/-- Witness for the C3 theorem: a concrete function-free store with nested
objects, an array of leaves, and a self-referencing placeholder. -/
theorem claim3_amended_idempotent_witness :
    resolveCall (resolvePass stIdem) (JSVal.obj []) = Except.ok (resolvePass stIdem) :=
  (claim3_amended_idempotent stIdem [] (fun _ => rfl) rfl (by decide)).2
